import Mathlib

/-! Shallow embedding of the integer formatting utilities of aipstack
(file src/aipstack/utils/IntFormat.h).

An integer type T (excluding bool) is modelled by its signedness `s : Bool`
and its bit width `w : Nat`; values of T are integers in the interval from
`TypeMin s w` to `TypeMax s w`, and the unsigned counterpart type UT has
modulus `2 ^ w`.  Machine unsigned arithmetic is modelled on `Nat` with
explicit reduction modulo `2 ^ w`, and the `unsigned char` digit subtraction
of the parser with explicit reduction modulo 256.  Buffers and input spans
are modelled as `List Char`. -/

namespace AIpStack

/-- Smallest representable value of the integer type with signedness `s` and
bit width `w` (the collaborator `TypeMin` of the source). -/
def TypeMin (s : Bool) (w : Nat) : Int :=
  if s then -(2 ^ (w - 1)) else 0

/-- Largest representable value of the integer type with signedness `s` and
bit width `w` (the collaborator `TypeMax` of the source). -/
def TypeMax (s : Bool) (w : Nat) : Int :=
  if s then 2 ^ (w - 1) - 1 else 2 ^ w - 1

/-- Representability of a value in the type: `TypeMin s w ≤ v ≤ TypeMax s w`. -/
def inRange (s : Bool) (w : Nat) (v : Int) : Prop :=
  TypeMin s w ≤ v ∧ v ≤ TypeMax s w

instance (s : Bool) (w : Nat) (v : Int) : Decidable (inRange s w v) := by
  unfold inRange
  infer_instance

/-- Conversion of a value to the unsigned counterpart type UT of width `w`:
reduction modulo `2 ^ w`, landing in the interval from 0 to `2 ^ w - 1`. -/
def utOf (w : Nat) (x : Int) : Nat :=
  (x % (2 ^ w : Int)).toNat

/-- Unsigned negation in UT of width `w`: the source expression `-u` applied
to an unsigned operand, which is two-complement negation modulo `2 ^ w`. -/
def unegW (w : Nat) (n : Nat) : Nat :=
  (2 ^ w - n % 2 ^ w) % 2 ^ w

/-- The byte the formatter stores for one decimal digit: `'0' + d`. -/
def digitChar (d : Nat) : Char :=
  Char.ofNat (48 + d)

/-- Digit characters emitted by the do-while loop of `FormatInteger`,
least significant digit first: repeatedly store `'0' + (uval % 10)` and
divide `uval` by 10, continuing while the quotient is positive. -/
def digitsRev (n : Nat) : List Char :=
  if h : n / 10 = 0 then [digitChar (n % 10)]
  else digitChar (n % 10) :: digitsRev (n / 10)
  decreasing_by omega

/-- Digit count computed by `Private::IntegerFormatLenUnsigned`: a do-while
loop that first divides the value by 10 and then counts the iteration,
continuing while the quotient is positive. -/
def IntegerFormatLenUnsigned (n : Nat) : Nat :=
  if h : n / 10 = 0 then 1
  else 1 + IntegerFormatLenUnsigned (n / 10)
  decreasing_by omega

/-- Bound `MaxIntegerFormatLen` of the source: for signed types one sign
character plus the digit count of `UT(-UT(TypeMin))`; for unsigned types the
digit count of `TypeMax`. -/
def MaxIntegerFormatLen (s : Bool) (w : Nat) : Nat :=
  if s then 1 + IntegerFormatLenUnsigned (unegW w (utOf w (TypeMin s w)))
  else IntegerFormatLenUnsigned (TypeMax s w).toNat

/-- Unsigned magnitude `uval` computed by `FormatInteger`:
`isNegative ? UT(-UT(value)) : value`. -/
def formatUval (_s : Bool) (w : Nat) (v : Int) : Nat :=
  if v < 0 then unegW w (utOf w v) else utOf w v

/-- Character sequence that `FormatInteger` leaves at the start of the
buffer: the digits of the magnitude emitted least significant first, then a
minus sign for negative values, the whole then reversed in place. -/
def formatChars (s : Bool) (w : Nat) (v : Int) : List Char :=
  (digitsRev (formatUval s w v) ++ (if v < 0 then ['-'] else [])).reverse

/-- Embedding of `FormatInteger` at the buffer level.  The digit loop and
the sign store write the bytes of `written` at consecutive positions from
the start of `buf`; `std::reverse` then reverses exactly that prefix.  The
result is the final buffer contents paired with the returned offset (the
pointer one past the last byte written, relative to the buffer start). -/
def FormatInteger (s : Bool) (w : Nat) (v : Int) (buf : List Char) : List Char × Nat :=
  let written := digitsRev (formatUval s w v) ++ (if v < 0 then ['-'] else [])
  let buf1 := written ++ buf.drop written.length
  ((buf1.take written.length).reverse ++ buf1.drop written.length, written.length)

/-- Digit value computed by the parser: `UChar(ch) - UChar(48)` in
`unsigned char` arithmetic, i.e. subtraction modulo 256. -/
def digitVal (c : Char) : Nat :=
  (c.toNat + 256 - 48) % 256

/-- Digit-scanning loop of `ParseInteger`, with UT arithmetic modelled
faithfully modulo `2 ^ w`: reject a non-digit byte, reject when the
accumulator already exceeds `ulimit / 10`, multiply by 10, reject when the
digit exceeds `ulimit - uvalue` (an unsigned subtraction), add the digit. -/
def parseLoopW (w ulimit ulimit10 : Nat) : Nat → List Char → Option Nat
  | acc, [] => some acc
  | acc, c :: rest =>
    let d := digitVal c
    if 9 < d then none
    else if ulimit10 < acc then none
    else
      let acc1 := acc * 10 % 2 ^ w
      if (ulimit + 2 ^ w - acc1) % 2 ^ w < d then none
      else parseLoopW w ulimit ulimit10 ((acc1 + d) % 2 ^ w) rest

/-- The same digit-scanning loop written in exact natural arithmetic, with
no reduction modulo `2 ^ w` and no wraparound anywhere. -/
def parseLoopN (ulimit ulimit10 : Nat) : Nat → List Char → Option Nat
  | acc, [] => some acc
  | acc, c :: rest =>
    let d := digitVal c
    if 9 < d then none
    else if ulimit10 < acc then none
    else if ulimit - acc * 10 < d then none
    else parseLoopN ulimit ulimit10 (acc * 10 + d) rest

/-- Embedding of `ParseInteger` as a partial function from the input span to
the parsed value: `none` models a `false` return.  The minus sign is only
examined for signed `T`; the unsigned limit is `UT(-UT(TypeMin))` after a
consumed sign and `TypeMax` otherwise; the final value reconstruction
special-cases a zero magnitude for negative inputs and otherwise computes
`-T(uvalue - 1) - 1`. -/
def ParseInteger (s : Bool) (w : Nat) (str : List Char) : Option Int :=
  match str with
  | [] => none
  | c :: rest =>
    if s && (c == '-') then
      if rest.isEmpty then none
      else
        let ulimit := unegW w (utOf w (TypeMin s w))
        match parseLoopW w ulimit (ulimit / 10) 0 rest with
        | none => none
        | some uvalue =>
          some (if uvalue = 0 then (0 : Int) else -((uvalue - 1 : Nat) : Int) - 1)
    else
      let ulimit := utOf w (TypeMax s w)
      match parseLoopW w ulimit (ulimit / 10) 0 (c :: rest) with
      | none => none
      | some uvalue => some ((uvalue : Int))

/-- Digit-scanning loop of `ParseInteger` with the out-parameter threaded
through explicitly: each early `return false` leaves the out location at its
prior contents `prev`; reaching the end of the span performs the final value
reconstruction and the single assignment to the out location. -/
def parseLoopOut (w ulimit ulimit10 : Nat) (isNeg : Bool) (prev : Int) :
    Nat → List Char → Bool × Int
  | acc, [] =>
    (true,
      if isNeg then (if acc = 0 then (0 : Int) else -((acc - 1 : Nat) : Int) - 1)
      else (acc : Int))
  | acc, c :: rest =>
    let d := digitVal c
    if 9 < d then (false, prev)
    else if ulimit10 < acc then (false, prev)
    else
      let acc1 := acc * 10 % 2 ^ w
      if (ulimit + 2 ^ w - acc1) % 2 ^ w < d then (false, prev)
      else parseLoopOut w ulimit ulimit10 isNeg prev ((acc1 + d) % 2 ^ w) rest

/-- Embedding of `ParseInteger` at the call level, with the out-parameter
modelled as explicit state: the result is the returned flag paired with the
contents of the out location after the call, whose prior contents are
`prev`.  Every `return false` path carries `prev` through unchanged. -/
def ParseIntegerOut (s : Bool) (w : Nat) (str : List Char) (prev : Int) : Bool × Int :=
  match str with
  | [] => (false, prev)
  | c :: rest =>
    if s && (c == '-') then
      if rest.isEmpty then (false, prev)
      else
        let ulimit := unegW w (utOf w (TypeMin s w))
        parseLoopOut w ulimit (ulimit / 10) true prev 0 rest
    else
      let ulimit := utOf w (TypeMax s w)
      parseLoopOut w ulimit (ulimit / 10) false prev 0 (c :: rest)

/-- Canonical decimal digit string of a natural number, written from the
words of the spec: the value zero is the single character `'0'`, any other
value is its base-10 digits most significant first, with no leading zero. -/
def decToStr (n : Nat) : List Char :=
  if n = 0 then ['0']
  else ((Nat.digits 10 n).map digitChar).reverse

/-- Decision of ASCII decimal digit-hood of a character, from the grammar in
the spec. -/
def isDigitCh (c : Char) : Bool :=
  48 ≤ c.toNat && c.toNat ≤ 57

/-- The accepted grammar from the spec: an optional single leading minus
sign, permitted only when the type is signed, followed by one or more ASCII
decimal digits; nothing else. -/
def ValidNumeral (s : Bool) (str : List Char) : Bool :=
  (!str.isEmpty && str.all isDigitCh) ||
    (s &&
      match str with
      | c :: ds => c == '-' && !ds.isEmpty && ds.all isDigitCh
      | [] => false)

/-- Numeric value of a digit string, from the words of the spec: the usual
base-10 value of its digits read left to right. -/
def digitsVal (ds : List Char) : Nat :=
  ds.foldl (fun a c => a * 10 + (c.toNat - 48)) 0

/-! Helper lemmas about digit characters. -/

theorem digitChar_toNat {d : Nat} (hd : d ≤ 9) : (digitChar d).toNat = 48 + d := by
  interval_cases d <;> decide

theorem digitVal_digitChar {d : Nat} (hd : d ≤ 9) : digitVal (digitChar d) = d := by
  interval_cases d <;> decide

theorem isDigitCh_digitChar {d : Nat} (hd : d ≤ 9) : isDigitCh (digitChar d) = true := by
  interval_cases d <;> decide

theorem digitChar_ne_minus {d : Nat} (hd : d ≤ 9) : digitChar d ≠ '-' := by
  interval_cases d <;> decide

theorem digitChar_ne_zeroCh {d : Nat} (hd : d ≤ 9) (h0 : d ≠ 0) : digitChar d ≠ '0' := by
  interval_cases d <;> first | exact absurd rfl h0 | decide

theorem digitVal_of_isDigitCh {c : Char} (h : isDigitCh c = true) :
    digitVal c = c.toNat - 48 := by
  unfold isDigitCh at h
  unfold digitVal
  simp only [Bool.and_eq_true, decide_eq_true_eq] at h
  omega

theorem digitVal_le_nine_of_isDigitCh {c : Char} (h : isDigitCh c = true) :
    digitVal c ≤ 9 := by
  unfold isDigitCh at h
  unfold digitVal
  simp only [Bool.and_eq_true, decide_eq_true_eq] at h
  omega

theorem isDigitCh_of_digitVal_le {c : Char} (hb : c.toNat < 256) (h : digitVal c ≤ 9) :
    isDigitCh c = true := by
  unfold digitVal at h
  unfold isDigitCh
  simp only [Bool.and_eq_true, decide_eq_true_eq]
  omega

theorem ne_minus_of_isDigitCh {c : Char} (h : isDigitCh c = true) : c ≠ '-' := by
  intro hc
  subst hc
  exact absurd h (by decide)

/-! Helper lemmas relating the formatter digit loop to `Nat.digits`. -/

theorem digitsRev_eq (n : Nat) :
    digitsRev n = if n = 0 then ['0'] else (Nat.digits 10 n).map digitChar := by
  induction n using Nat.strong_induction_on with
  | _ n ih =>
    rw [digitsRev]
    by_cases h : n / 10 = 0
    · rw [dif_pos h]
      by_cases hn : n = 0
      · subst hn
        simp
        decide
      · have h10 : n < 10 := by omega
        rw [if_neg hn, Nat.digits_def' (by norm_num) (Nat.pos_of_ne_zero hn), h,
          Nat.digits_zero]
        simp [Nat.mod_eq_of_lt h10]
    · rw [dif_neg h, ih (n / 10) (by omega)]
      have hn : n ≠ 0 := by omega
      rw [if_neg h, if_neg hn,
        Nat.digits_def' (by norm_num) (Nat.pos_of_ne_zero hn)]
      simp

theorem digitsRev_length (n : Nat) : (digitsRev n).length = IntegerFormatLenUnsigned n := by
  induction n using Nat.strong_induction_on with
  | _ n ih =>
    rw [digitsRev, IntegerFormatLenUnsigned]
    by_cases h : n / 10 = 0
    · rw [dif_pos h, dif_pos h]
      rfl
    · rw [dif_neg h, dif_neg h]
      simp [ih (n / 10) (by omega)]
      omega

theorem IntegerFormatLenUnsigned_pos (n : Nat) : 1 ≤ IntegerFormatLenUnsigned n := by
  rw [IntegerFormatLenUnsigned]
  split <;> omega

theorem IntegerFormatLenUnsigned_mono {m n : Nat} (h : m ≤ n) :
    IntegerFormatLenUnsigned m ≤ IntegerFormatLenUnsigned n := by
  induction m using Nat.strong_induction_on generalizing n with
  | _ m ih =>
    rw [IntegerFormatLenUnsigned]
    by_cases hm : m / 10 = 0
    · rw [dif_pos hm]
      exact IntegerFormatLenUnsigned_pos n
    · rw [dif_neg hm]
      have hn : ¬ n / 10 = 0 := by omega
      conv_rhs => rw [IntegerFormatLenUnsigned]
      rw [dif_neg hn]
      have := ih (m / 10) (by omega) (Nat.div_le_div_right h)
      omega

/-! Helper lemmas about the unsigned view of the type bounds. -/

theorem emod_eq_add_pow {w : Nat} {x : Int} (h0 : -(2 ^ w : Int) ≤ x) (hx : x < 0) :
    x % (2 ^ w : Int) = x + 2 ^ w := by
  rw [show x % (2 ^ w : Int) = (x + 2 ^ w) % 2 ^ w from (Int.add_emod_self).symm]
  exact Int.emod_eq_of_lt (by linarith) (by linarith)

theorem two_pow_split {w : Nat} (hw : 1 ≤ w) : 2 ^ w = 2 ^ (w - 1) * 2 := by
  conv_lhs => rw [← Nat.succ_pred_eq_of_pos hw]
  rw [pow_succ, Nat.pred_eq_sub_one]

theorem two_pow_split_int {w : Nat} (hw : 1 ≤ w) : (2 ^ w : Int) = 2 ^ (w - 1) * 2 := by
  conv_lhs => rw [← Nat.succ_pred_eq_of_pos hw]
  rw [pow_succ, Nat.pred_eq_sub_one]

theorem utOf_typeMin {w : Nat} (hw : 1 ≤ w) : utOf w (TypeMin true w) = 2 ^ (w - 1) := by
  unfold utOf TypeMin
  rw [if_pos rfl]
  have hsplit := two_pow_split_int hw
  have hpos : (0 : Int) < 2 ^ (w - 1) := by positivity
  rw [emod_eq_add_pow (by linarith) (by linarith)]
  rw [show -(2 ^ (w - 1) : Int) + 2 ^ w = 2 ^ (w - 1) by linarith]
  rw [show ((2 : Int) ^ (w - 1)) = ((2 ^ (w - 1) : Nat) : Int) by push_cast; ring]
  exact Int.toNat_natCast _

theorem unegW_two_pow {w : Nat} (hw : 1 ≤ w) : unegW w (2 ^ (w - 1)) = 2 ^ (w - 1) := by
  unfold unegW
  have hsplit := two_pow_split hw
  have hlt : 2 ^ (w - 1) < 2 ^ w := by
    have := Nat.one_le_two_pow (n := w - 1)
    omega
  rw [Nat.mod_eq_of_lt hlt, show 2 ^ w - 2 ^ (w - 1) = 2 ^ (w - 1) by omega,
    Nat.mod_eq_of_lt hlt]

theorem ulimit_neg_eq {w : Nat} (hw : 1 ≤ w) :
    unegW w (utOf w (TypeMin true w)) = 2 ^ (w - 1) := by
  rw [utOf_typeMin hw, unegW_two_pow hw]

theorem int_two_pow_cast (k : Nat) : ((2 : Int) ^ k) = (Nat.cast (2 ^ k) : Int) := by
  push_cast
  ring

theorem typeMax_toNat_signed {w : Nat} : (TypeMax true w).toNat = 2 ^ (w - 1) - 1 := by
  unfold TypeMax
  rw [if_pos rfl, int_two_pow_cast (w - 1)]
  omega

theorem typeMax_toNat_unsigned {w : Nat} : (TypeMax false w).toNat = 2 ^ w - 1 := by
  unfold TypeMax
  rw [if_neg Bool.false_ne_true, int_two_pow_cast w]
  omega

theorem typeMax_nonneg (s : Bool) (w : Nat) : 0 ≤ TypeMax s w := by
  have h1 : 1 ≤ 2 ^ (w - 1) := Nat.one_le_two_pow
  have h2 : 1 ≤ 2 ^ w := Nat.one_le_two_pow
  unfold TypeMax
  split
  · rw [int_two_pow_cast (w - 1)]
    omega
  · rw [int_two_pow_cast w]
    omega

theorem typeMax_lt_two_pow (s : Bool) (w : Nat) : TypeMax s w < (2 ^ w : Int) := by
  have h2 : 2 ^ (w - 1) ≤ 2 ^ w := Nat.pow_le_pow_right (by norm_num) (by omega)
  have h1 : 1 ≤ 2 ^ (w - 1) := Nat.one_le_two_pow
  unfold TypeMax
  split
  · rw [int_two_pow_cast (w - 1), int_two_pow_cast w]
    omega
  · rw [int_two_pow_cast w]
    omega

theorem utOf_typeMax (s : Bool) (w : Nat) :
    utOf w (TypeMax s w) = (TypeMax s w).toNat := by
  unfold utOf
  rw [Int.emod_eq_of_lt (typeMax_nonneg s w) (typeMax_lt_two_pow s w)]

theorem typeMax_toNat_lt (s : Bool) (w : Nat) : (TypeMax s w).toNat < 2 ^ w := by
  have h2 : 2 ^ (w - 1) ≤ 2 ^ w := Nat.pow_le_pow_right (by norm_num) (by omega)
  have h1 : 1 ≤ 2 ^ (w - 1) := Nat.one_le_two_pow
  have h3 : 1 ≤ 2 ^ w := Nat.one_le_two_pow
  cases s
  · rw [typeMax_toNat_unsigned]
    omega
  · rw [typeMax_toNat_signed]
    omega

theorem typeMin_nonpos (s : Bool) (w : Nat) : TypeMin s w ≤ 0 := by
  have h1 : 1 ≤ 2 ^ (w - 1) := Nat.one_le_two_pow
  unfold TypeMin
  split
  · rw [int_two_pow_cast (w - 1)]
    omega
  · omega

/-! Helper lemmas about the canonical decimal string. -/

theorem decToStr_eq_digitsRev (n : Nat) : (digitsRev n).reverse = decToStr n := by
  rw [digitsRev_eq, decToStr]
  by_cases hn : n = 0
  · simp [hn]
  · simp [hn]

theorem decToStr_ne_nil (n : Nat) : decToStr n ≠ [] := by
  unfold decToStr
  by_cases hn : n = 0
  · simp [hn]
  · simp [hn, Nat.digits_ne_nil_iff_ne_zero]

theorem decToStr_all_digits {n : Nat} : ∀ c ∈ decToStr n, isDigitCh c = true := by
  intro c hc
  unfold decToStr at hc
  by_cases hn : n = 0
  · rw [if_pos hn] at hc
    simp at hc
    subst hc
    decide
  · rw [if_neg hn, List.mem_reverse, List.mem_map] at hc
    obtain ⟨d, hd, rfl⟩ := hc
    exact isDigitCh_digitChar (by have := Nat.digits_lt_base (by norm_num) hd; omega)

theorem decToStr_head_ne_zero {n : Nat} (hn : n ≠ 0) : (decToStr n).head? ≠ some '0' := by
  unfold decToStr
  have hne : Nat.digits 10 n ≠ [] := Nat.digits_ne_nil_iff_ne_zero.mpr hn
  rw [if_neg hn, List.head?_reverse, List.getLast?_map, List.getLast?_eq_getLast _ hne,
    Option.map_some']
  have hlast := Nat.getLast_digit_ne_zero 10 hn
  have hmem : (Nat.digits 10 n).getLast hne ∈ Nat.digits 10 n := List.getLast_mem hne
  have hlt := Nat.digits_lt_base (by norm_num) hmem
  intro hcontra
  exact digitChar_ne_zeroCh (by omega) hlast (Option.some.inj hcontra)

theorem foldl_digitVal_decToStr (n : Nat) :
    (decToStr n).foldl (fun a c => a * 10 + digitVal c) 0 = n := by
  unfold decToStr
  by_cases hn : n = 0
  · rw [if_pos hn, hn]
    rfl
  · rw [if_neg hn, List.foldl_reverse, List.foldr_map]
    have key : ∀ L : List Nat, (∀ d ∈ L, d ≤ 9) →
        L.foldr (fun x y => y * 10 + digitVal (digitChar x)) 0 = Nat.ofDigits 10 L := by
      intro L hL
      induction L with
      | nil => simp [Nat.ofDigits]
      | cons d L ih =>
        rw [List.foldr_cons, ih (fun x hx => hL x (List.mem_cons_of_mem _ hx)),
          Nat.ofDigits_cons, digitVal_digitChar (hL d (List.mem_cons_self _ _))]
        ring
    rw [key _ (fun d hd => by have := Nat.digits_lt_base (by norm_num) hd; omega),
      Nat.ofDigits_digits]

/-! Helper lemmas about the formatter. -/

theorem formatUval_eq_natAbs {s : Bool} {w : Nat} {v : Int} (hw : 1 ≤ w)
    (hr : inRange s w v) : formatUval s w v = v.natAbs := by
  obtain ⟨hmin, hmax⟩ := hr
  have hc : ((2 : Int) ^ w) = ((2 ^ w : Nat) : Int) := int_two_pow_cast w
  have hc1 : ((2 : Int) ^ (w - 1)) = ((2 ^ (w - 1) : Nat) : Int) := int_two_pow_cast (w - 1)
  have hps : (2 ^ w : Nat) = 2 ^ (w - 1) * 2 := two_pow_split hw
  have hp1 : 1 ≤ (2 ^ (w - 1) : Nat) := Nat.one_le_two_pow
  unfold formatUval
  by_cases hv : v < 0
  · rw [if_pos hv]
    have hs : s = true := by
      cases s
      · exfalso
        unfold TypeMin at hmin
        simp at hmin
        omega
      · rfl
    subst hs
    have hminval : -(2 ^ (w - 1) : Int) ≤ v := by
      unfold TypeMin at hmin
      simpa using hmin
    unfold utOf
    rw [emod_eq_add_pow (by omega) hv]
    unfold unegW
    have hn_lt : (v + 2 ^ w).toNat < 2 ^ w := by omega
    have hn_ge : 2 ^ (w - 1) ≤ (v + 2 ^ w).toNat := by omega
    rw [Nat.mod_eq_of_lt hn_lt, Nat.mod_eq_of_lt (by omega)]
    omega
  · rw [if_neg hv]
    have hv0 : 0 ≤ v := by omega
    have hlt : v < (2 : Int) ^ w := lt_of_le_of_lt hmax (typeMax_lt_two_pow s w)
    unfold utOf
    rw [Int.emod_eq_of_lt hv0 hlt]
    omega

theorem formatChars_eq {s : Bool} {w : Nat} {v : Int} (hw : 1 ≤ w) (hr : inRange s w v) :
    formatChars s w v = (if v < 0 then ['-'] else []) ++ decToStr v.natAbs := by
  unfold formatChars
  rw [formatUval_eq_natAbs hw hr, List.reverse_append, decToStr_eq_digitsRev]
  by_cases hv : v < 0 <;> simp [hv]

theorem FormatInteger_fst (s : Bool) (w : Nat) (v : Int) (buf : List Char) :
    (FormatInteger s w v buf).1 =
      formatChars s w v ++ buf.drop (formatChars s w v).length := by
  unfold FormatInteger formatChars
  dsimp only
  rw [List.take_left, List.drop_left, List.length_reverse]

theorem FormatInteger_snd (s : Bool) (w : Nat) (v : Int) (buf : List Char) :
    (FormatInteger s w v buf).2 = (formatChars s w v).length := by
  unfold FormatInteger formatChars
  dsimp only
  rw [List.length_reverse]

/-! Helper lemmas about the parser digit loop. -/

theorem parseLoopW_eq_parseLoopN {w ulimit : Nat} (hlt : ulimit < 2 ^ w) :
    ∀ ds acc, acc ≤ ulimit →
      parseLoopW w ulimit (ulimit / 10) acc ds = parseLoopN ulimit (ulimit / 10) acc ds := by
  intro ds
  induction ds with
  | nil =>
    intro acc _
    rfl
  | cons c rest ih =>
    intro acc hacc
    by_cases h9 : 9 < digitVal c
    · simp [parseLoopW, parseLoopN, h9]
    · by_cases hover : ulimit / 10 < acc
      · simp [parseLoopW, parseLoopN, h9, hover]
      · have hmul : acc * 10 ≤ ulimit := by
          have h1 : acc ≤ ulimit / 10 := by omega
          calc acc * 10 ≤ ulimit / 10 * 10 := by omega
          _ ≤ ulimit := Nat.div_mul_le_self _ _
        have hmod : acc * 10 % 2 ^ w = acc * 10 := Nat.mod_eq_of_lt (by omega)
        have hsub : (ulimit + 2 ^ w - acc * 10) % 2 ^ w = ulimit - acc * 10 := by
          rw [show ulimit + 2 ^ w - acc * 10 = ulimit - acc * 10 + 2 ^ w by omega,
            Nat.add_mod_right]
          exact Nat.mod_eq_of_lt (by omega)
        by_cases hd : ulimit - acc * 10 < digitVal c
        · simp [parseLoopW, parseLoopN, h9, hover, hmod, hsub, hd]
        · have hnew : acc * 10 + digitVal c ≤ ulimit := by omega
          have hmod2 : (acc * 10 + digitVal c) % 2 ^ w = acc * 10 + digitVal c :=
            Nat.mod_eq_of_lt (by omega)
          simp only [parseLoopW, parseLoopN, if_neg h9, if_neg hover, hmod, hsub,
            if_neg hd, hmod2]
          exact ih _ hnew

theorem parseLoopN_le {ulimit : Nat} :
    ∀ ds acc n, acc ≤ ulimit →
      parseLoopN ulimit (ulimit / 10) acc ds = some n → n ≤ ulimit := by
  intro ds
  induction ds with
  | nil =>
    intro acc n hacc h
    simp [parseLoopN] at h
    omega
  | cons c rest ih =>
    intro acc n hacc h
    by_cases h9 : 9 < digitVal c
    · simp [parseLoopN, h9] at h
    · by_cases hover : ulimit / 10 < acc
      · simp [parseLoopN, h9, hover] at h
      · by_cases hd : ulimit - acc * 10 < digitVal c
        · simp [parseLoopN, h9, hover, hd] at h
        · have hmul : acc * 10 ≤ ulimit := by
            have h1 : acc ≤ ulimit / 10 := by omega
            calc acc * 10 ≤ ulimit / 10 * 10 := by omega
            _ ≤ ulimit := Nat.div_mul_le_self _ _
          simp only [parseLoopN, if_neg h9, if_neg hover, if_neg hd] at h
          exact ih _ _ (by omega) h

theorem parseLoopW_some_digits {w ulimit ulimit10 : Nat} :
    ∀ ds acc n, parseLoopW w ulimit ulimit10 acc ds = some n →
      ∀ c ∈ ds, digitVal c ≤ 9 := by
  intro ds
  induction ds with
  | nil =>
    intro acc n _ c hc
    simp at hc
  | cons c0 rest ih =>
    intro acc n h c hc
    by_cases h9 : 9 < digitVal c0
    · simp [parseLoopW, h9] at h
    · rcases List.mem_cons.mp hc with hceq | hcmem
      · subst hceq
        omega
      · by_cases hover : ulimit10 < acc
        · simp [parseLoopW, h9, hover] at h
        · by_cases hd : (ulimit + 2 ^ w - acc * 10 % 2 ^ w) % 2 ^ w < digitVal c0
          · simp [parseLoopW, h9, hover, hd] at h
          · simp only [parseLoopW, if_neg h9, if_neg hover, if_neg hd] at h
            exact ih _ _ h c hcmem

theorem foldl_digitVal_ge :
    ∀ (ds : List Char) (acc : Nat),
      acc ≤ ds.foldl (fun a c => a * 10 + digitVal c) acc := by
  intro ds
  induction ds with
  | nil =>
    intro acc
    simp
  | cons c rest ih =>
    intro acc
    rw [List.foldl_cons]
    have h1 := ih (acc * 10 + digitVal c)
    omega

theorem parseLoopN_complete {ulimit : Nat} :
    ∀ ds acc, (∀ c ∈ ds, digitVal c ≤ 9) →
      ds.foldl (fun a c => a * 10 + digitVal c) acc ≤ ulimit →
      parseLoopN ulimit (ulimit / 10) acc ds =
        some (ds.foldl (fun a c => a * 10 + digitVal c) acc) := by
  intro ds
  induction ds with
  | nil =>
    intro acc _ _
    rfl
  | cons c rest ih =>
    intro acc hdig htot
    rw [List.foldl_cons] at htot ⊢
    have h9 : ¬ 9 < digitVal c := by
      have := hdig c (List.mem_cons_self _ _)
      omega
    have hge := foldl_digitVal_ge rest (acc * 10 + digitVal c)
    have hmul : acc * 10 + digitVal c ≤ ulimit := by omega
    have hover : ¬ ulimit / 10 < acc := by
      have h1 : acc ≤ ulimit / 10 := (Nat.le_div_iff_mul_le (by norm_num)).mpr (by omega)
      omega
    have hd : ¬ ulimit - acc * 10 < digitVal c := by omega
    rw [parseLoopN, if_neg h9, if_neg hover, if_neg hd]
    exact ih _ (fun x hx => hdig x (List.mem_cons_of_mem _ hx)) htot

/-! Helper lemmas about the top level of the parser. -/

theorem two_pow_pred_lt {w : Nat} (hw : 1 ≤ w) : 2 ^ (w - 1) < 2 ^ w := by
  have hps := two_pow_split hw
  have hp1 : 1 ≤ (2 ^ (w - 1) : Nat) := Nat.one_le_two_pow
  omega

theorem ParseInteger_digits {s : Bool} {w : Nat} {ds : List Char}
    (hne : ds ≠ []) (hdig : ∀ c ∈ ds, isDigitCh c = true)
    (hval : ds.foldl (fun a c => a * 10 + digitVal c) 0 ≤ (TypeMax s w).toNat) :
    ParseInteger s w ds =
      some ((ds.foldl (fun a c => a * 10 + digitVal c) 0 : Nat) : Int) := by
  obtain ⟨c, rest, rfl⟩ := List.exists_cons_of_ne_nil hne
  have hcm : ¬ (s && (c == '-')) = true := by
    simp only [Bool.and_eq_true, beq_iff_eq]
    rintro ⟨_, rfl⟩
    exact absurd (hdig '-' (List.mem_cons_self _ _)) (by decide)
  simp only [ParseInteger, if_neg hcm, utOf_typeMax]
  rw [parseLoopW_eq_parseLoopN (typeMax_toNat_lt s w) _ 0 (by omega),
    parseLoopN_complete _ 0 (fun x hx => digitVal_le_nine_of_isDigitCh (hdig x hx)) hval]

theorem ParseInteger_neg_digits {w : Nat} {ds : List Char} (hw : 1 ≤ w)
    (hne : ds ≠ []) (hdig : ∀ c ∈ ds, isDigitCh c = true)
    (hval : ds.foldl (fun a c => a * 10 + digitVal c) 0 ≤ 2 ^ (w - 1)) :
    ParseInteger true w ('-' :: ds) =
      some (if ds.foldl (fun a c => a * 10 + digitVal c) 0 = 0 then (0 : Int)
        else -((ds.foldl (fun a c => a * 10 + digitVal c) 0 - 1 : Nat) : Int) - 1) := by
  have hre : ¬ ds.isEmpty = true := by
    simpa [List.isEmpty_iff] using hne
  simp only [ParseInteger]
  rw [if_pos (by decide : (true && ('-' == '-')) = true), if_neg hre]
  rw [ulimit_neg_eq hw,
    parseLoopW_eq_parseLoopN (two_pow_pred_lt hw) _ 0 (by omega),
    parseLoopN_complete _ 0 (fun x hx => digitVal_le_nine_of_isDigitCh (hdig x hx)) hval]

theorem validNumeral_of_some {s : Bool} {w : Nat} {str : List Char}
    (hbytes : ∀ c ∈ str, c.toNat < 256) {v : Int}
    (h : ParseInteger s w str = some v) : ValidNumeral s str = true := by
  match str with
  | [] => simp [ParseInteger] at h
  | c :: rest =>
    by_cases hm : (s && (c == '-')) = true
    · simp only [ParseInteger, if_pos hm] at h
      by_cases hre : rest.isEmpty = true
      · rw [if_pos hre] at h
        exact absurd h (by simp)
      · rw [if_neg hre] at h
        split at h
        · exact absurd h (by simp)
        rename_i u hu
        have hdigs := parseLoopW_some_digits _ _ _ hu
        obtain ⟨hs, hc⟩ : s = true ∧ (c == '-') = true := by simpa using hm
        have hall : rest.all isDigitCh = true :=
          List.all_eq_true.mpr fun x hx =>
            isDigitCh_of_digitVal_le (hbytes x (List.mem_cons_of_mem _ hx)) (hdigs x hx)
        have hre' : rest.isEmpty = false := by
          revert hre
          cases rest.isEmpty <;> simp
        simp [ValidNumeral, hs, hc, hall, hre']
    · simp only [ParseInteger, if_neg hm] at h
      split at h
      · exact absurd h (by simp)
      rename_i u hu
      have hdigs := parseLoopW_some_digits _ _ _ hu
      have hall : (c :: rest).all isDigitCh = true :=
        List.all_eq_true.mpr fun x hx => isDigitCh_of_digitVal_le (hbytes x hx) (hdigs x hx)
      simp [ValidNumeral, hall]

theorem parseLoopOut_eq {w u u10 : Nat} (isNeg : Bool) (prev : Int) :
    ∀ (ds : List Char) (acc : Nat),
      parseLoopOut w u u10 isNeg prev acc ds =
        match parseLoopW w u u10 acc ds with
        | none => (false, prev)
        | some n =>
          (true,
            if isNeg then (if n = 0 then (0 : Int) else -((n - 1 : Nat) : Int) - 1)
            else (n : Int)) := by
  intro ds
  induction ds with
  | nil =>
    intro acc
    rfl
  | cons c rest ih =>
    intro acc
    by_cases h9 : 9 < digitVal c
    · simp [parseLoopOut, parseLoopW, h9]
    · by_cases hover : u10 < acc
      · simp [parseLoopOut, parseLoopW, h9, hover]
      · by_cases hd : (u + 2 ^ w - acc * 10 % 2 ^ w) % 2 ^ w < digitVal c
        · simp [parseLoopOut, parseLoopW, h9, hover, hd]
        · simp only [parseLoopOut, parseLoopW, if_neg h9, if_neg hover, if_neg hd]
          exact ih _

theorem ParseIntegerOut_eq (s : Bool) (w : Nat) (str : List Char) (prev : Int) :
    ParseIntegerOut s w str prev =
      match ParseInteger s w str with
      | none => (false, prev)
      | some v => (true, v) := by
  match str with
  | [] => rfl
  | c :: rest =>
    simp only [ParseIntegerOut, ParseInteger]
    by_cases hm : (s && (c == '-')) = true
    · rw [if_pos hm, if_pos hm]
      by_cases hre : rest.isEmpty = true
      · rw [if_pos hre, if_pos hre]
      · rw [if_neg hre, if_neg hre, parseLoopOut_eq]
        cases parseLoopW w (unegW w (utOf w (TypeMin s w)))
          (unegW w (utOf w (TypeMin s w)) / 10) 0 rest <;> rfl
    · rw [if_neg hm, if_neg hm, parseLoopOut_eq]
      cases parseLoopW w (utOf w (TypeMax s w))
        (utOf w (TypeMax s w) / 10) 0 (c :: rest) <;> rfl

theorem ParseInteger_some_inRange {s : Bool} {w : Nat} {str : List Char} {v : Int}
    (hw : 1 ≤ w) (h : ParseInteger s w str = some v) : inRange s w v := by
  have hc1 : ((2 : Int) ^ (w - 1)) = ((2 ^ (w - 1) : Nat) : Int) := int_two_pow_cast (w - 1)
  have hp1 : 1 ≤ (2 ^ (w - 1) : Nat) := Nat.one_le_two_pow
  match str with
  | [] => simp [ParseInteger] at h
  | c :: rest =>
    by_cases hm : (s && (c == '-')) = true
    · obtain ⟨hs, _⟩ : s = true ∧ (c == '-') = true := by simpa using hm
      subst hs
      simp only [ParseInteger, if_pos hm] at h
      by_cases hre : rest.isEmpty = true
      · rw [if_pos hre] at h
        exact absurd h (by simp)
      · rw [if_neg hre, ulimit_neg_eq hw] at h
        split at h
        · exact absurd h (by simp)
        rename_i u hu
        rw [parseLoopW_eq_parseLoopN (two_pow_pred_lt hw) _ 0 (by omega)] at hu
        have hle := parseLoopN_le _ _ _ (by omega) hu
        have hv : v = if u = 0 then (0 : Int) else -((u - 1 : Nat) : Int) - 1 :=
          (Option.some.inj h).symm
        unfold inRange TypeMin TypeMax
        rw [if_pos rfl, if_pos rfl, hc1]
        by_cases hu0 : u = 0
        · rw [hv, if_pos hu0]
          constructor <;> omega
        · rw [hv, if_neg hu0]
          constructor <;> omega
    · simp only [ParseInteger, if_neg hm, utOf_typeMax] at h
      split at h
      · exact absurd h (by simp)
      rename_i u hu
      rw [parseLoopW_eq_parseLoopN (typeMax_toNat_lt s w) _ 0 (by omega)] at hu
      have hle := parseLoopN_le _ _ _ (by omega) hu
      have hv : v = (u : Int) := (Option.some.inj h).symm
      have hmax0 := typeMax_nonneg s w
      have hmin0 := typeMin_nonpos s w
      constructor
      · rw [hv]
        omega
      · rw [hv]
        omega

/-! Helper lemmas about formatted lengths. -/

theorem formatChars_length_eq {s : Bool} {w : Nat} {v : Int} (hw : 1 ≤ w)
    (hr : inRange s w v) :
    (formatChars s w v).length =
      IntegerFormatLenUnsigned v.natAbs + (if v < 0 then 1 else 0) := by
  unfold formatChars
  rw [List.length_reverse, List.length_append, formatUval_eq_natAbs hw hr,
    digitsRev_length]
  by_cases hv : v < 0 <;> simp [hv]

theorem one_le_formatChars_length (s : Bool) (w : Nat) (v : Int) :
    1 ≤ (formatChars s w v).length := by
  unfold formatChars
  rw [List.length_reverse, List.length_append, digitsRev_length]
  have := IntegerFormatLenUnsigned_pos (formatUval s w v)
  omega

theorem formatChars_length_le {s : Bool} {w : Nat} {v : Int} (hw : 1 ≤ w)
    (hr : inRange s w v) :
    (formatChars s w v).length ≤ MaxIntegerFormatLen s w := by
  rw [formatChars_length_eq hw hr]
  obtain ⟨hmin, hmax⟩ := hr
  cases s
  · unfold MaxIntegerFormatLen
    rw [if_neg Bool.false_ne_true, typeMax_toNat_unsigned]
    unfold TypeMin at hmin
    rw [if_neg Bool.false_ne_true] at hmin
    unfold TypeMax at hmax
    rw [if_neg Bool.false_ne_true] at hmax
    have hc := int_two_pow_cast w
    have h1 : 1 ≤ (2 ^ w : Nat) := Nat.one_le_two_pow
    have hnab : v.natAbs ≤ 2 ^ w - 1 := by omega
    have hmono := IntegerFormatLenUnsigned_mono hnab
    have hneg : ¬ v < 0 := by omega
    rw [if_neg hneg]
    omega
  · unfold MaxIntegerFormatLen
    rw [if_pos rfl, ulimit_neg_eq hw]
    unfold TypeMin at hmin
    rw [if_pos rfl] at hmin
    unfold TypeMax at hmax
    rw [if_pos rfl] at hmax
    have hc1 := int_two_pow_cast (w - 1)
    have hnab : v.natAbs ≤ 2 ^ (w - 1) := by omega
    have hmono := IntegerFormatLenUnsigned_mono hnab
    by_cases hv : v < 0
    · rw [if_pos hv]
      omega
    · rw [if_neg hv]
      omega

theorem typeMin_lt_zero {w : Nat} : TypeMin true w < 0 := by
  unfold TypeMin
  rw [if_pos rfl, int_two_pow_cast (w - 1)]
  have h1 : 1 ≤ (2 ^ (w - 1) : Nat) := Nat.one_le_two_pow
  omega

theorem typeMin_natAbs {w : Nat} : (TypeMin true w).natAbs = 2 ^ (w - 1) := by
  unfold TypeMin
  rw [if_pos rfl, int_two_pow_cast (w - 1)]
  generalize (2 ^ (w - 1) : Nat) = p
  omega

theorem typeMax_natAbs_unsigned {w : Nat} : (TypeMax false w).natAbs = 2 ^ w - 1 := by
  unfold TypeMax
  rw [if_neg Bool.false_ne_true, int_two_pow_cast w]
  have h1 : 1 ≤ (2 ^ w : Nat) := Nat.one_le_two_pow
  omega

theorem inRange_typeMin (s : Bool) (w : Nat) : inRange s w (TypeMin s w) :=
  ⟨le_refl _, le_trans (typeMin_nonpos s w) (typeMax_nonneg s w)⟩

theorem inRange_typeMax (s : Bool) (w : Nat) : inRange s w (TypeMax s w) :=
  ⟨le_trans (typeMin_nonpos s w) (typeMax_nonneg s w), le_refl _⟩

theorem formatChars_length_min {w : Nat} (hw : 1 ≤ w) :
    (formatChars true w (TypeMin true w)).length = MaxIntegerFormatLen true w := by
  rw [formatChars_length_eq hw (inRange_typeMin true w), if_pos typeMin_lt_zero,
    typeMin_natAbs]
  unfold MaxIntegerFormatLen
  rw [if_pos rfl, ulimit_neg_eq hw]
  omega

theorem formatChars_length_max {w : Nat} (hw : 1 ≤ w) :
    (formatChars false w (TypeMax false w)).length = MaxIntegerFormatLen false w := by
  have hw1 : ¬ TypeMax false w < 0 := not_lt.mpr (typeMax_nonneg false w)
  rw [formatChars_length_eq hw (inRange_typeMax false w), if_neg hw1,
    typeMax_natAbs_unsigned]
  unfold MaxIntegerFormatLen
  rw [if_neg Bool.false_ne_true, typeMax_toNat_unsigned]
  omega

theorem foldl_sub48_eq_digitVal :
    ∀ (ds : List Char), (∀ c ∈ ds, isDigitCh c = true) → ∀ acc : Nat,
      ds.foldl (fun a c => a * 10 + (c.toNat - 48)) acc
        = ds.foldl (fun a c => a * 10 + digitVal c) acc := by
  intro ds
  induction ds with
  | nil =>
    intro _ acc
    rfl
  | cons c rest ih =>
    intro hdig acc
    rw [List.foldl_cons, List.foldl_cons,
      digitVal_of_isDigitCh (hdig c (List.mem_cons_self _ _))]
    exact ih (fun x hx => hdig x (List.mem_cons_of_mem _ hx)) _

/-! Claim theorems. -/

/-- Claim C1: for every integer type T (signedness `s`, bit width `w`, with
`w` at least 1) and every value `v` representable in T, formatting `v` with
`FormatInteger` and then parsing the resulting character sequence with
`ParseInteger` succeeds and yields exactly `v`, including the most negative
value of a signed type. -/
theorem C1_format_parse_round_trip (s : Bool) (w : Nat) (v : Int)
    (hw : 1 ≤ w) (hr : inRange s w v) :
    ParseInteger s w (formatChars s w v) = some v := by
  have hfc := formatChars_eq hw hr
  obtain ⟨hmin, hmax⟩ := hr
  by_cases hv : v < 0
  · have hs : s = true := by
      cases s
      · exfalso
        unfold TypeMin at hmin
        rw [if_neg Bool.false_ne_true] at hmin
        omega
      · rfl
    subst hs
    rw [hfc, if_pos hv, List.singleton_append]
    have hc1 := int_two_pow_cast (w - 1)
    have hmle : v.natAbs ≤ 2 ^ (w - 1) := by
      unfold TypeMin at hmin
      rw [if_pos rfl, hc1] at hmin
      omega
    rw [ParseInteger_neg_digits hw (decToStr_ne_nil _) decToStr_all_digits
      (by rw [foldl_digitVal_decToStr]; exact hmle)]
    rw [foldl_digitVal_decToStr]
    rw [if_neg (by omega)]
    have hval : -((v.natAbs - 1 : Nat) : Int) - 1 = v := by omega
    rw [hval]
  · rw [hfc, if_neg hv, List.nil_append]
    have hnn := typeMax_nonneg s w
    have hble : v.natAbs ≤ (TypeMax s w).toNat := by omega
    rw [ParseInteger_digits (decToStr_ne_nil _) decToStr_all_digits
      (by rw [foldl_digitVal_decToStr]; exact hble)]
    rw [foldl_digitVal_decToStr]
    have hval : ((v.natAbs : Nat) : Int) = v := by omega
    rw [hval]

/-- Witness for C1: round trip of the most negative 8-bit value. -/
theorem C1_format_parse_round_trip_witness :
    ParseInteger true 8 (formatChars true 8 (-128)) = some (-128) :=
  C1_format_parse_round_trip true 8 (-128) (by norm_num) (by decide)

/-- Claim C2: for every integer type, the number of characters written by
`FormatInteger` for a representable value is at most `MaxIntegerFormatLen`,
and the bound is attained at the minimum of a signed type and at the maximum
of an unsigned type. -/
theorem C2_length_bound_tight (s : Bool) (w : Nat) (hw : 1 ≤ w) :
    (∀ (v : Int) (buf : List Char), inRange s w v →
        (FormatInteger s w v buf).2 ≤ MaxIntegerFormatLen s w) ∧
      ∀ buf : List Char,
        (FormatInteger s w (if s then TypeMin s w else TypeMax s w) buf).2
          = MaxIntegerFormatLen s w := by
  constructor
  · intro v buf hr
    rw [FormatInteger_snd]
    exact formatChars_length_le hw hr
  · intro buf
    rw [FormatInteger_snd]
    cases s
    · exact formatChars_length_max hw
    · exact formatChars_length_min hw

/-- Witness for C2 at the signed 8-bit type. -/
theorem C2_length_bound_tight_witness :
    (FormatInteger true 8 (-5) []).2 ≤ MaxIntegerFormatLen true 8 ∧
      (FormatInteger true 8 (TypeMin true 8) []).2 = MaxIntegerFormatLen true 8 := by
  refine ⟨(C2_length_bound_tight true 8 (by norm_num)).1 (-5) [] (by decide), ?_⟩
  have h := (C2_length_bound_tight true 8 (by norm_num)).2 []
  simpa using h

/-- Claim C3: `FormatInteger` writes exactly the decimal representation at
the start of the buffer: a minus sign exactly for negative values followed
by the decimal digits of the magnitude with no leading zeros, zero producing
exactly the single character list with the zero digit, and it returns the
offset one past the last byte written. -/
theorem C3_format_exact_decimal (s : Bool) (w : Nat) (v : Int) (buf : List Char)
    (hw : 1 ≤ w) (hr : inRange s w v) :
    (FormatInteger s w v buf).1.take (FormatInteger s w v buf).2
        = (if v < 0 then ['-'] else []) ++ decToStr v.natAbs ∧
      (FormatInteger s w v buf).2 = (formatChars s w v).length ∧
      formatChars s w v = (if v < 0 then ['-'] else []) ++ decToStr v.natAbs ∧
      (∀ n : Nat, n ≠ 0 → (decToStr n).head? ≠ some '0') ∧
      decToStr 0 = ['0'] := by
  refine ⟨?_, FormatInteger_snd s w v buf, formatChars_eq hw hr,
    fun n hn => decToStr_head_ne_zero hn, rfl⟩
  rw [FormatInteger_fst, FormatInteger_snd, List.take_left, formatChars_eq hw hr]

/-- Witness for C3 at a negative two-digit value. -/
theorem C3_format_exact_decimal_witness :
    formatChars true 8 (-42) = ['-'] ++ decToStr ((-42 : Int)).natAbs :=
  (C3_format_exact_decimal true 8 (-42) [] (by norm_num) (by decide)).2.2.1

/-- Claim C4: when the parse fails, the out location holds exactly the value
it held before the call; the out location is modified only on success. -/
theorem C4_parse_failure_atomic (s : Bool) (w : Nat) (str : List Char) (prev : Int) :
    ((ParseIntegerOut s w str prev).1 = false ↔ ParseInteger s w str = none) ∧
      (ParseInteger s w str = none → ParseIntegerOut s w str prev = (false, prev)) := by
  rw [ParseIntegerOut_eq]
  cases h : ParseInteger s w str <;> simp

/-- Witness for C4 on a failing input. -/
theorem C4_parse_failure_atomic_witness :
    ParseIntegerOut true 8 ['x'] 42 = (false, 42) :=
  (C4_parse_failure_atomic true 8 ['x'] 42).2 (by decide)

/-- Claim C5: `ParseInteger` returns failure for every byte input that is not
an optional single leading minus sign (permitted only for signed types)
followed by one or more ASCII decimal digits. -/
theorem C5_parse_rejects_invalid (s : Bool) (w : Nat) (str : List Char)
    (hbytes : ∀ c ∈ str, c.toNat < 256) (hbad : ValidNumeral s str = false) :
    ParseInteger s w str = none := by
  cases h : ParseInteger s w str with
  | none => rfl
  | some v => exact absurd (validNumeral_of_some hbytes h) (by simp [hbad])

/-- Witness for C5 on the rejected inputs listed in the spec. -/
theorem C5_parse_rejects_invalid_witness :
    ParseInteger true 8 ([] : List Char) = none ∧
      ParseInteger true 8 ['-'] = none ∧
      ParseInteger true 8 ['1','2','a'] = none ∧
      ParseInteger true 8 ['+','5'] = none ∧
      ParseInteger true 8 ['-','-','3'] = none ∧
      ParseInteger true 8 [' ','5'] = none ∧
      ParseInteger true 8 ['5',' '] = none ∧
      ParseInteger false 8 ['-','1'] = none :=
  ⟨C5_parse_rejects_invalid true 8 _ (by decide) (by decide),
    C5_parse_rejects_invalid true 8 _ (by decide) (by decide),
    C5_parse_rejects_invalid true 8 _ (by decide) (by decide),
    C5_parse_rejects_invalid true 8 _ (by decide) (by decide),
    C5_parse_rejects_invalid true 8 _ (by decide) (by decide),
    C5_parse_rejects_invalid true 8 _ (by decide) (by decide),
    C5_parse_rejects_invalid true 8 _ (by decide) (by decide),
    C5_parse_rejects_invalid false 8 _ (by decide) (by decide)⟩

/-- Claim C6: for every signed type, parsing the two-character input of a
minus sign followed by the zero digit succeeds and yields zero, through the
explicit zero-magnitude special case of the reconstruction. -/
theorem C6_parse_minus_zero (w : Nat) : ParseInteger true w ['-','0'] = some 0 := by
  simp only [ParseInteger]
  rw [if_pos (by decide : (true && ('-' == '-')) = true),
    if_neg (by decide : ¬ (['0'].isEmpty = true))]
  have h0 : digitVal '0' = 0 := rfl
  simp [parseLoopW, h0]

/-- Claim C7: parsing accepts exactly the in-range values at the 8-bit range
boundaries, for the signed range from -128 to 127 and the unsigned range
from 0 to 255. -/
theorem C7_eight_bit_boundaries :
    ParseInteger true 8 ['-','1','2','8'] = some (-128) ∧
      ParseInteger true 8 ['-','1','2','9'] = none ∧
      ParseInteger true 8 ['1','2','7'] = some 127 ∧
      ParseInteger true 8 ['1','2','8'] = none ∧
      ParseInteger false 8 ['2','5','5'] = some 255 ∧
      ParseInteger false 8 ['2','5','6'] = none ∧
      ParseInteger false 8 ['-','1'] = none := by
  refine ⟨by decide, by decide, by decide, by decide, by decide, by decide, by decide⟩

/-- Claim C8: under the loop invariant that the accumulator never exceeds
`ulimit`, the digit loop with machine modular arithmetic computes exactly
what the wraparound-free loop computes, so no unsigned wraparound occurs;
and every successfully parsed value is representable in the target type. -/
theorem C8_accumulator_invariant :
    (∀ (w ulimit : Nat) (ds : List Char) (acc : Nat),
        ulimit < 2 ^ w → acc ≤ ulimit →
        parseLoopW w ulimit (ulimit / 10) acc ds
            = parseLoopN ulimit (ulimit / 10) acc ds ∧
          ∀ n, parseLoopW w ulimit (ulimit / 10) acc ds = some n → n ≤ ulimit) ∧
      ∀ (s : Bool) (w : Nat) (str : List Char) (v : Int), 1 ≤ w →
        ParseInteger s w str = some v → inRange s w v := by
  constructor
  · intro w ulimit ds acc hlt hacc
    have hb := parseLoopW_eq_parseLoopN hlt ds acc hacc
    refine ⟨hb, fun n hn => parseLoopN_le ds acc n hacc ?_⟩
    rw [← hb]
    exact hn
  · intro s w str v hw h
    exact ParseInteger_some_inRange hw h

/-- Witness for C8 at the unsigned 8-bit limit. -/
theorem C8_accumulator_invariant_witness :
    (parseLoopW 8 255 (255 / 10) 0 ['9','9'] = parseLoopN 255 (255 / 10) 0 ['9','9']) ∧
      inRange true 8 (-5) :=
  ⟨(C8_accumulator_invariant.1 8 255 ['9','9'] 0 (by decide) (by decide)).1,
    C8_accumulator_invariant.2 true 8 ['-','5'] (-5) (by norm_num) (by decide)⟩

/-- Claim C9: `FormatInteger` writes at least 1 and at most
`MaxIntegerFormatLen` bytes, modifies only the prefix up to the returned
offset, leaves every byte at or beyond the returned offset unchanged, and
preserves the buffer length. -/
theorem C9_frame_bytes_beyond_untouched (s : Bool) (w : Nat) (v : Int) (buf : List Char)
    (hw : 1 ≤ w) (hr : inRange s w v) (hbuf : MaxIntegerFormatLen s w ≤ buf.length) :
    1 ≤ (FormatInteger s w v buf).2 ∧
      (FormatInteger s w v buf).2 ≤ MaxIntegerFormatLen s w ∧
      (FormatInteger s w v buf).1.drop (FormatInteger s w v buf).2
        = buf.drop (FormatInteger s w v buf).2 ∧
      (FormatInteger s w v buf).1.length = buf.length := by
  have h2 := FormatInteger_snd s w v buf
  have hle := formatChars_length_le hw hr
  have hpos := one_le_formatChars_length s w v
  refine ⟨by omega, by omega, ?_, ?_⟩
  · rw [FormatInteger_fst, h2, List.drop_left]
  · rw [FormatInteger_fst, List.length_append, List.length_drop]
    omega

/-- Witness for C9 at the most negative 8-bit value in a 4-byte buffer. -/
theorem C9_frame_bytes_beyond_untouched_witness :
    (FormatInteger true 8 (-128) ['x','x','x','x']).1.length = 4 := by
  have h := (C9_frame_bytes_beyond_untouched true 8 (-128) ['x','x','x','x']
    (by norm_num) (by decide)
    (by simp [MaxIntegerFormatLen, unegW, utOf, TypeMin, IntegerFormatLenUnsigned])).2.2.2
  simpa using h

/-- Claim C10: `ParseInteger` accepts digit strings with redundant leading
zeros whenever their numeric value is representable, so the set of accepted
inputs is strictly larger than the set of formatter outputs: the input of
three characters zero, zero, seven parses to seven but is never produced by
the formatter. -/
theorem C10_leading_zeros_accepted :
    (∀ (s : Bool) (w : Nat) (ds : List Char), ds ≠ [] →
        (∀ c ∈ ds, isDigitCh c = true) →
        ((digitsVal ds : Nat) : Int) ≤ TypeMax s w →
        ParseInteger s w ds = some ((digitsVal ds : Nat) : Int)) ∧
      ParseInteger false 8 ['0','0','7'] = some 7 ∧
      ParseInteger true 8 ['-','0','0','7'] = some (-7) ∧
      ∀ v : Int, inRange false 8 v → formatChars false 8 v ≠ ['0','0','7'] := by
  refine ⟨?_, by decide, by decide, ?_⟩
  · intro s w ds hne hdig hle
    have hfold := foldl_sub48_eq_digitVal ds hdig 0
    unfold digitsVal at hle ⊢
    rw [hfold] at hle ⊢
    have hnn := typeMax_nonneg s w
    have hbound : ds.foldl (fun a c => a * 10 + digitVal c) 0 ≤ (TypeMax s w).toNat := by
      omega
    exact ParseInteger_digits hne hdig hbound
  · intro v hr hcontra
    have hfc := formatChars_eq (by norm_num) hr
    obtain ⟨hmin, hmax⟩ := hr
    have hv : ¬ v < 0 := by
      unfold TypeMin at hmin
      rw [if_neg Bool.false_ne_true] at hmin
      omega
    rw [hfc, if_neg hv] at hcontra
    simp only [List.nil_append] at hcontra
    by_cases h0 : v.natAbs = 0
    · rw [h0] at hcontra
      exact absurd hcontra (by decide)
    · exact absurd (by rw [hcontra]; rfl : (decToStr v.natAbs).head? = some '0')
        (decToStr_head_ne_zero h0)

/-- Witness for C10 on the padded input of two zeros and a seven. -/
theorem C10_leading_zeros_accepted_witness :
    ParseInteger false 8 ['0','0','7'] = some ((digitsVal ['0','0','7'] : Nat) : Int) :=
  C10_leading_zeros_accepted.1 false 8 ['0','0','7'] (by decide) (by decide) (by decide)

end AIpStack
